import Mathlib

/-!
Verification of the PDF order-confirmation parser (`dagen_teknisk.py`).

The Python source is shallowly embedded: text is `List Char`, Python's
`str.strip`, `str.startswith`, `in`, `str.replace` and `str.split(maxsplit=2)`
are modelled by executable functions below; the line reconstructor, the
stateful section/table parser and the CSV output stage are translated
function by function.  Vertical offsets (`word['top']`) are modelled as `Int`.
-/

namespace DT

/-- Characters of a string literal, the representation of Python text. -/
def chars (x : String) : List Char := x.data

/-- Python's default whitespace set for `str.strip` / `str.split`. -/
def pyIsSpace (c : Char) : Bool :=
  c == ' ' || c == '\t' || c == '\n' || c == '\r' || c == '\x0b' || c == '\x0c'

/-- Python `str.strip()`: drop whitespace from both ends. -/
def pyStrip (l : List Char) : List Char :=
  ((l.dropWhile pyIsSpace).reverse.dropWhile pyIsSpace).reverse

/-- Python `str.startswith`. -/
def startsW : List Char → List Char → Bool
  | [], _ => true
  | _ :: _, [] => false
  | p :: ps, c :: cs => p == c && startsW ps cs

/-- Python `needle in haystack` substring test. -/
def hasSub (needle : List Char) : List Char → Bool
  | [] => needle.isEmpty
  | c :: cs => startsW needle (c :: cs) || hasSub needle cs

/-- Fuel-indexed worker for `replaceAll`; fuel is the length of the input,
which bounds the number of recursion steps. -/
def replaceAllFuel (old new : List Char) : Nat → List Char → List Char
  | _, [] => []
  | 0, l => l
  | fuel + 1, c :: cs =>
      if startsW old (c :: cs) then
        new ++ replaceAllFuel old new fuel (cs.drop (old.length - 1))
      else c :: replaceAllFuel old new fuel cs

/-- Python `str.replace(old, new)`: replace every non-overlapping occurrence,
left to right.  The code only calls it with a non-empty `old`. -/
def replaceAll (old new l : List Char) : List Char :=
  if old.isEmpty then l else replaceAllFuel old new l.length l

/-- Python `str.split(maxsplit=2)`: split on whitespace runs, at most twice;
the remainder after the second split is kept verbatim (its leading whitespace
run is consumed as the separator, empty remainders are dropped). -/
def splitMax2 (l : List Char) : List (List Char) :=
  let l1 := l.dropWhile pyIsSpace
  if l1.isEmpty then []
  else
    let t1 := l1.takeWhile (fun c => !pyIsSpace c)
    let r1 := (l1.dropWhile (fun c => !pyIsSpace c)).dropWhile pyIsSpace
    if r1.isEmpty then [t1]
    else
      let t2 := r1.takeWhile (fun c => !pyIsSpace c)
      let r2 := (r1.dropWhile (fun c => !pyIsSpace c)).dropWhile pyIsSpace
      if r2.isEmpty then [t1, t2] else [t1, t2, r2]

/-- A positioned word from `pdfplumber`'s `extract_words`: its text and its
vertical offset `word['top']`. -/
structure Word where
  text : List Char
  top : Int
deriving DecidableEq

/-- The `' '.join([w['text'] for w in current_line])` of the source. -/
def joinTexts (ws : List Word) : List Char :=
  List.intercalate [' '] (ws.map Word.text)

/-- The branch condition of the loop in `concatenate_words_to_lines`:
`last_top is None or abs(word['top'] - last_top) > 5`. -/
def newLineCond (w : Word) : Option Int → Bool
  | none => true
  | some t => decide (5 < (w.top - t).natAbs)

/-- The loop of `concatenate_words_to_lines`, with the accumulated `lines`,
the `current_line` buffer and the `last_top` marker made explicit. -/
def cwtlGo : List Word → List (List Char) → List Word → Option Int → List (List Char)
  | [], lines, current, _ =>
      if current.isEmpty then lines else lines ++ [joinTexts current]
  | w :: rest, lines, current, lastTop =>
      if newLineCond w lastTop then
        (if current.isEmpty then cwtlGo rest lines [w] (some w.top)
         else cwtlGo rest (lines ++ [joinTexts current]) [w] (some w.top))
      else cwtlGo rest lines (current ++ [w]) lastTop

/-- `concatenate_words_to_lines(words)` of the source. -/
def concatenate_words_to_lines (words : List Word) : List (List Char) :=
  cwtlGo words [] [] none

/- Helper lemmas about `List.intercalate`. -/

lemma intercalate_cons_ne (a : List Char) (l : List (List Char)) (h : l ≠ []) :
    List.intercalate [' '] (a :: l) = a ++ ' ' :: List.intercalate [' '] l := by
  obtain ⟨b, t, rfl⟩ : ∃ b t, l = b :: t := by
    cases l with
    | nil => exact absurd rfl h
    | cons b t => exact ⟨b, t, rfl⟩
  simp [List.intercalate, List.intersperse_cons_cons]

lemma intercalate_append_ne (xs ys : List (List Char)) (hx : xs ≠ []) (hy : ys ≠ []) :
    List.intercalate [' '] (xs ++ ys)
      = List.intercalate [' '] xs ++ ' ' :: List.intercalate [' '] ys := by
  induction xs with
  | nil => exact absurd rfl hx
  | cons a xs ih =>
    cases xs with
    | nil =>
      simp only [List.singleton_append]
      rw [intercalate_cons_ne a ys hy]
      simp [List.intercalate]
    | cons b t =>
      rw [List.cons_append, intercalate_cons_ne a ((b :: t) ++ ys) (by simp),
        intercalate_cons_ne a (b :: t) (by simp), ih (by simp)]
      simp

lemma intercalate_single (a : List Char) : List.intercalate [' '] [a] = a := by
  simp [List.intercalate]

lemma flatten_ne_nil (bufs : List (List Word)) (hne : bufs ≠ [])
    (h : ∀ b ∈ bufs, b ≠ []) : bufs.flatten ≠ [] := by
  cases bufs with
  | nil => exact absurd rfl hne
  | cons b t =>
    have hb : b ≠ [] := h b (by simp)
    cases b with
    | nil => exact absurd rfl hb
    | cons w bw => simp

lemma intercalate_map_flatten (bufs : List (List Word)) (h : ∀ b ∈ bufs, b ≠ []) :
    List.intercalate [' '] (bufs.map joinTexts)
      = List.intercalate [' '] (bufs.flatten.map Word.text) := by
  induction bufs with
  | nil => simp
  | cons b bufs ih =>
    have hb : b ≠ [] := h b (by simp)
    have hrest : ∀ x ∈ bufs, x ≠ [] := fun x hx => h x (by simp [hx])
    cases bufs with
    | nil => simp [joinTexts, intercalate_single]
    | cons c t =>
      have hjoin : ((c :: t) : List (List Word)).flatten ≠ [] :=
        flatten_ne_nil _ (by simp) hrest
      have hmapb : b.map Word.text ≠ [] := by
        cases b with
        | nil => exact absurd rfl hb
        | cons w bw => simp
      have hmapjoin : (((c :: t) : List (List Word)).flatten).map Word.text ≠ [] := by
        cases hcase : ((c :: t) : List (List Word)).flatten with
        | nil => exact absurd hcase hjoin
        | cons x xs => simp
      rw [List.map_cons, intercalate_cons_ne _ _ (by simp), ih hrest]
      rw [show ((b :: c :: t : List (List Word))).flatten = b ++ ((c :: t : List (List Word))).flatten
            from rfl]
      rw [show (b ++ ((c :: t : List (List Word))).flatten).map Word.text
            = b.map Word.text ++ (((c :: t : List (List Word))).flatten).map Word.text
            from List.map_append _ _ _]
      rw [intercalate_append_ne _ _ hmapb hmapjoin]
      simp [joinTexts]

/-- Shape of the reconstructor loop: starting from a non-empty buffer, the
output is the accumulated lines followed by the space-joins of a sequence of
non-empty buffers that partitions `current ++ rest` in order. -/
lemma cwtlGo_shape (rest : List Word) :
    ∀ (lines : List (List Char)) (current : List Word) (lastTop : Option Int),
      current ≠ [] →
      ∃ bufs : List (List Word),
        cwtlGo rest lines current lastTop = lines ++ bufs.map joinTexts ∧
        bufs.flatten = current ++ rest ∧
        ∀ b ∈ bufs, b ≠ [] := by
  induction rest with
  | nil =>
    intro lines current lastTop hcur
    refine ⟨[current], ?_, by simp, by simp [hcur]⟩
    simp [cwtlGo, List.isEmpty_iff, hcur]
  | cons w rest ih =>
    intro lines current lastTop hcur
    by_cases hc : newLineCond w lastTop = true
    · obtain ⟨bufs, h1, h2, h3⟩ :=
        ih (lines ++ [joinTexts current]) [w] (some w.top) (by simp)
      refine ⟨current :: bufs, ?_, ?_, ?_⟩
      · simp only [cwtlGo, hc, if_true, List.isEmpty_iff, hcur, if_neg hcur]
        rw [if_neg (by simp [List.isEmpty_iff, hcur])]
        rw [h1]
        simp
      · simp [h2]
      · intro b hb
        rcases List.mem_cons.mp hb with rfl | hb
        · exact hcur
        · exact h3 b hb
    · obtain ⟨bufs, h1, h2, h3⟩ := ih lines (current ++ [w]) lastTop (by simp)
      refine ⟨bufs, ?_, ?_, h3⟩
      · simp only [cwtlGo]
        rw [if_neg (by simpa using hc)]
        exact h1
      · rw [h2]; simp

/-- C10.  Joining the reconstructed lines with single spaces equals joining the
input words' texts with single spaces: `concatenate_words_to_lines` neither
drops, duplicates nor reorders word text. -/
theorem C10_word_text_preservation (ws : List Word) :
    List.intercalate [' '] (concatenate_words_to_lines ws)
      = List.intercalate [' '] (ws.map Word.text) := by
  cases ws with
  | nil => simp [concatenate_words_to_lines, cwtlGo]
  | cons w rest =>
    have hstep : concatenate_words_to_lines (w :: rest)
        = cwtlGo rest [] [w] (some w.top) := by
      simp [concatenate_words_to_lines, cwtlGo, newLineCond]
    obtain ⟨bufs, h1, h2, h3⟩ := cwtlGo_shape rest [] [w] (some w.top) (by simp)
    rw [hstep, h1, List.nil_append, intercalate_map_flatten bufs h3, h2]
    simp

/-- C1 (amended).  Two consecutive words whose vertical offsets differ by
exactly the threshold (5) are placed on the same line, because the source
compares with a strict `>`; a difference of one less than the threshold also
keeps them on the same line.  Only a difference strictly greater than 5 starts
a new line. -/
theorem C1_threshold_boundary (a b : List Char) (t1 t2 : Int) :
    ((t2 - t1).natAbs = 5 →
        concatenate_words_to_lines [⟨a, t1⟩, ⟨b, t2⟩] = [a ++ ' ' :: b]) ∧
    ((t2 - t1).natAbs = 4 →
        concatenate_words_to_lines [⟨a, t1⟩, ⟨b, t2⟩] = [a ++ ' ' :: b]) := by
  constructor
  · intro h
    simp [concatenate_words_to_lines, cwtlGo, newLineCond, h, joinTexts,
      List.intercalate, List.intersperse]
  · intro h
    simp [concatenate_words_to_lines, cwtlGo, newLineCond, h, joinTexts,
      List.intercalate, List.intersperse]

/-- Witness for C1: at offsets 0 and 5 (difference exactly the threshold) the
two words land on one common line, and likewise at offsets 0 and 4. -/
theorem C1_threshold_boundary_witness :
    concatenate_words_to_lines [⟨['x'], 0⟩, ⟨['y'], 5⟩] = [['x', ' ', 'y']] ∧
    concatenate_words_to_lines [⟨['x'], 0⟩, ⟨['y'], 4⟩] = [['x', ' ', 'y']] :=
  ⟨(C1_threshold_boundary ['x'] ['y'] 0 5).1 (by decide),
   (C1_threshold_boundary ['x'] ['y'] 0 4).2 (by decide)⟩

/-- C1 counterexample: two words with vertical offsets 0 and 5 — difference
exactly equal to the threshold — are NOT placed on different lines; the claim
predicts two output lines, the code produces one. -/
theorem C1_counterexample :
    ¬ (concatenate_words_to_lines [⟨['x'], 0⟩, ⟨['y'], 5⟩]).length = 2 := by
  decide

/-- One job section of the document, the dictionary built in
`parse_pdf_structure`; the `finalized` flag defaults to `false` at creation
and models `section.get('finalized', False)`. -/
structure Section where
  section_name : List Char
  start_date : List Char
  return_date : List Char
  brukerdager : List Char
  tables : List (List (List (List Char)))
  total_utstyr : Option (List Char)
  total_eks_mva : Option (List Char)
  finalized : Bool
deriving DecidableEq

/-- The mutable state of the parsing pass: the output `sections` list,
`current_section`, `in_table` and the accumulating `table_data`. -/
structure PState where
  sections : List Section
  current_section : Option Section
  in_table : Bool
  table_data : List (List (List Char))
deriving DecidableEq

/-- The `s['finalized'] = True` marking applied to collected sections. -/
def markFinalized (sec : Section) : Section := { sec with finalized := true }

/-- The `if table_data: current_section['tables'].append(...)` pattern that
stores the pending rows as one finished table. -/
def flushTables (sec : Section) (td : List (List (List Char))) : Section :=
  if td = [] then sec else { sec with tables := sec.tables ++ [td] }

/-- `end_current_section()` of the source: if a section is open and not yet
finalized, flush the pending rows, append the section and re-mark every
collected section finalized; always reset the parser state. -/
def end_current_section (st : PState) : PState :=
  match st.current_section with
  | some cs =>
      if cs.finalized then
        { st with current_section := none, in_table := false, table_data := [] }
      else
        { sections := (st.sections ++ [flushTables cs st.table_data]).map markFinalized,
          current_section := none, in_table := false, table_data := [] }
  | none => { st with current_section := none, in_table := false, table_data := [] }

/-- The fresh section dictionary created on a `Jobb navn:` line. -/
def newSection (name : List Char) : Section :=
  { section_name := name, start_date := [], return_date := [], brukerdager := [],
    tables := [], total_utstyr := none, total_eks_mva := none, finalized := false }

/-- Append `txt` to the last field of a row (`table_data[-1][-1] += txt`);
rows built by the parser always have 3 fields, so the last field is the
third (the empty-row case, which would raise `IndexError` in Python, is
unreachable — see the C9 invariant). -/
def appendToLast (txt : List Char) : List (List Char) → List (List Char)
  | [] => []
  | [f] => [f ++ txt]
  | f :: fs => f :: appendToLast txt fs

/-- Append `txt` to the last field of the last row of `table_data`. -/
def appendContinuation (txt : List Char) : List (List (List Char)) → List (List (List Char))
  | [] => []
  | [r] => [appendToLast txt r]
  | r :: rs => r :: appendContinuation txt rs

/-- The per-line body of the loop in `parse_pdf_structure`, covering the
classification chain: section marker, metadata prefixes, totals, table
header, table row / continuation. -/
def step (st : PState) (line0 : List Char) : PState :=
  let line := pyStrip line0
  if startsW (chars "Jobb navn:") line then
    let st1 := end_current_section st
    { st1 with
        current_section := some (newSection (pyStrip (replaceAll (chars "Jobb navn:") [] line))),
        in_table := false, table_data := [] }
  else
    match st.current_section with
    | none => st
    | some cs =>
        if startsW (chars "Start dato") line then
          { st with current_section := some ({ cs with start_date := pyStrip (replaceAll (chars "Start dato") [] line) }) }
        else if startsW (chars "Retur dato") line then
          { st with current_section := some ({ cs with return_date := pyStrip (replaceAll (chars "Retur dato") [] line) }) }
        else if startsW (chars "Brukerdager") line then
          { st with current_section := some ({ cs with brukerdager := pyStrip (replaceAll (chars "Brukerdager") [] line) }) }
        else if startsW (chars "Total utstyr:") line then
          { st with current_section := some ({ cs with total_utstyr := some (pyStrip (replaceAll (chars "Total utstyr:") [] line)) }) }
        else if startsW (chars "Total eks.mva") line then
          { st with current_section := some ({ cs with total_eks_mva := some (pyStrip (replaceAll (chars "Total eks.mva") [] line)) }) }
        else if startsW (chars "Pos") line && hasSub (chars "Antall") line && hasSub (chars "Navn") line then
          { st with current_section := some (flushTables cs st.table_data),
                    in_table := true, table_data := [] }
        else if st.in_table then
          let split_line := splitMax2 line
          if split_line.length = 3 then
            { st with table_data := st.table_data ++ [split_line] }
          else if st.table_data = [] then st
          else { st with table_data := appendContinuation (' ' :: pyStrip line) st.table_data }
        else st

/-- Folding the parser over every page's lines in page order, from the
initial state. -/
def foldPages (line_data : List (Int × List (List Char))) : PState :=
  line_data.foldl (fun st pg => pg.2.foldl step st) ⟨[], none, false, []⟩

/-- `parse_pdf_structure(line_data)` of the source: run the per-line pass
over all pages, close the last section, and return the section list. -/
def parse_pdf_structure (line_data : List (Int × List (List Char))) : List Section :=
  (end_current_section (foldPages line_data)).sections

/-- Python `range(a, b)` over integers. -/
def intRange (a b : Int) : List Int := (List.range (b - a).toNat).map (fun i => a + i)

/-- `pdf.pages[i]` (the word list of the cropped page): non-negative indices
count from the front, negative indices from the back as in Python.  Indices
whose magnitude is out of range (which would raise `IndexError`) return the
empty page; the source only indexes after checking `page_number < total`. -/
def pageAt (pdf : List (List Word)) (i : Int) : List Word :=
  if 0 ≤ i then pdf.getD i.toNat [] else pdf.getD (pdf.length - (-i).toNat) []

/-- Loop body of `extract_lines_from_pdf`: an out-of-range page is recorded
as a printed diagnostic (second component), an in-range page contributes its
reconstructed lines to `line_data` (first component). -/
def extractStep (pdf : List (List Word)) (total : Int)
    (acc : List (Int × List (List Char)) × List Int) (pn : Int) :
    List (Int × List (List Char)) × List Int :=
  if total ≤ pn then (acc.1, acc.2 ++ [pn])
  else (acc.1 ++ [(pn, concatenate_words_to_lines (pageAt pdf pn))], acc.2)

/-- `extract_lines_from_pdf(pdf_path, start_page, end_page)` of the source,
with the PDF abstracted as the per-page word lists.  Returns the page-number
to lines association (the `line_data` dict in insertion order) together with
the list of skipped page numbers (diagnostic prints). -/
def extract_lines_from_pdf (pdf : List (List Word)) (start_page end_page : Int) :
    List (Int × List (List Char)) × List Int :=
  let total : Int := pdf.length
  let ep := if end_page = -1 then max 1 (total - 3) else end_page
  (intRange start_page ep).foldl (extractStep pdf total) ([], [])

/-- The character replacement of `sanitize_filename`: keep alphanumerics,
spaces and underscores, replace everything else by an underscore. -/
def sanChar (c : Char) : Char :=
  if c.isAlphanum || c == ' ' || c == '_' then c else '_'

/-- `sanitize_filename(name)` of the source: replace invalid characters and
strip surrounding whitespace. -/
def sanitize_filename (name : List Char) : List Char :=
  pyStrip (name.map sanChar)

/-- The per-section file name computed in `main`:
`sanitize_filename(f"{section['section_name']}_data") + ".csv"`. -/
def section_csv_filename (name : List Char) : List Char :=
  sanitize_filename (name ++ chars "_data") ++ chars ".csv"

/-- Formalisation of the spec's wording for C8: the Section's name with every
character other than alphanumerics, spaces and underscores replaced by an
underscore, suffixed with `_data.csv`. -/
def spec_section_filename (name : List Char) : List Char :=
  name.map sanChar ++ chars "_data.csv"

/-- `pd.concat(dfs, ignore_index=True)`: concatenates the rows, but raises
`ValueError: No objects to concatenate` on an empty list. -/
def pdConcat (dfs : List (List (List (List Char)))) :
    Except String (List (List (List Char))) :=
  match dfs with
  | [] => Except.error "No objects to concatenate"
  | _ => Except.ok dfs.flatten

/-- The output stage of `main`: the per-section CSV files (file name and rows,
for sections with a non-empty table list) and the combined `pd.concat` over
all those sections' rows. -/
def output_stage (sections : List Section) :
    List (List Char × List (List (List Char))) × Except String (List (List (List Char))) :=
  (sections.filterMap (fun sec =>
      if sec.tables = [] then none
      else some (section_csv_filename sec.section_name, sec.tables.flatten)),
   pdConcat (sections.filterMap (fun sec =>
      if sec.tables = [] then none else some sec.tables.flatten)))

/-- C5.  The end-to-end scenario: the Alpha page followed by the Beta page
parses into exactly the two expected Sections, and the combined output holds
the three rows in order. -/
theorem C5_end_to_end :
    parse_pdf_structure
      [(0, [chars "Jobb navn: Alpha", chars "Start dato 01.01.2025",
            chars "Pos Antall Navn", chars "1 2 Cable", chars "2 1 Mixer"]),
       (1, [chars "Jobb navn: Beta", chars "Pos Antall Navn", chars "3 4 Light"])]
      = [{ section_name := chars "Alpha", start_date := chars "01.01.2025",
           return_date := [], brukerdager := [],
           tables := [[[chars "1", chars "2", chars "Cable"],
                       [chars "2", chars "1", chars "Mixer"]]],
           total_utstyr := none, total_eks_mva := none, finalized := true },
         { section_name := chars "Beta", start_date := [],
           return_date := [], brukerdager := [],
           tables := [[[chars "3", chars "4", chars "Light"]]],
           total_utstyr := none, total_eks_mva := none, finalized := true }] ∧
    (output_stage (parse_pdf_structure
      [(0, [chars "Jobb navn: Alpha", chars "Start dato 01.01.2025",
            chars "Pos Antall Navn", chars "1 2 Cable", chars "2 1 Mixer"]),
       (1, [chars "Jobb navn: Beta", chars "Pos Antall Navn", chars "3 4 Light"])])).2
      = Except.ok [[chars "1", chars "2", chars "Cable"],
                   [chars "2", chars "1", chars "Mixer"],
                   [chars "3", chars "4", chars "Light"]] := by
  constructor
  · rfl
  · rfl

/-- C2.  Zero parsed Sections are NOT handled as an explicit empty-result
case: the per-section loop indeed writes zero files, but the combined output
calls `pd.concat` on an empty list, which raises `ValueError` instead of
producing an empty or header-only combined file. -/
theorem C2_empty_sections_unhandled :
    parse_pdf_structure [] = [] ∧
    output_stage (parse_pdf_structure [])
      = ([], Except.error "No objects to concatenate") := by
  constructor
  · rfl
  · rfl

lemma extract_foldl (pdf : List (List Word)) (total : Int) (l : List Int) :
    ∀ acc : List (Int × List (List Char)) × List Int,
      l.foldl (extractStep pdf total) acc
        = (acc.1 ++ (l.filter (fun pn => decide (pn < total))).map
              (fun pn => (pn, concatenate_words_to_lines (pageAt pdf pn))),
           acc.2 ++ l.filter (fun pn => decide (total ≤ pn))) := by
  induction l with
  | nil => intro acc; simp
  | cons pn l ih =>
    intro acc
    rw [List.foldl_cons, ih]
    by_cases h : total ≤ pn
    · have hlt : ¬ pn < total := not_lt.mpr h
      simp [extractStep, h, hlt]
    · have hlt : pn < total := not_le.mp h
      simp [extractStep, h, hlt]

/-- C3 (amended).  `extract_lines_from_pdf` processes exactly the pages of
the HALF-OPEN range `[start_page, end_page)` (Python `range` excludes the
upper bound; an `end_page` of `-1` is first replaced by
`max 1 (total - 3)`): every in-range page below the page count is processed
in order, and every requested index at or above the page count is skipped
with a diagnostic — the run does not abort and the remaining pages of the
range are still handled. -/
theorem C3_page_range (pdf : List (List Word)) (sp ep : Int) :
    extract_lines_from_pdf pdf sp ep
      = (((intRange sp (if ep = -1 then max 1 ((pdf.length : Int) - 3) else ep)).filter
            (fun pn => decide (pn < (pdf.length : Int)))).map
            (fun pn => (pn, concatenate_words_to_lines (pageAt pdf pn))),
         (intRange sp (if ep = -1 then max 1 ((pdf.length : Int) - 3) else ep)).filter
            (fun pn => decide ((pdf.length : Int) ≤ pn))) := by
  unfold extract_lines_from_pdf
  rw [extract_foldl]
  simp

/-- C3 counterexample: a 4-page document with `start_page = 1`,
`end_page = 2`.  The claimed INCLUSIVE range `[1, 2]` would process pages 1
and 2 (both exist), but the code processes only page 1: `range(1, 2)`
excludes the upper bound. -/
theorem C3_counterexample :
    ¬ ((extract_lines_from_pdf
          [[⟨['a'], 0⟩], [⟨['b'], 0⟩], [⟨['c'], 0⟩], [⟨['d'], 0⟩]] 1 2).1.map Prod.fst
        = [1, 2]) := by
  decide

lemma markFinalized_id (sec : Section) (h : sec.finalized = true) :
    markFinalized sec = sec := by
  cases sec
  simp only [markFinalized]
  simp only at h
  rw [h]

lemma map_markFinalized_id (ss : List Section) (h : ∀ x ∈ ss, x.finalized = true) :
    ss.map markFinalized = ss := by
  induction ss with
  | nil => rfl
  | cons a t ih =>
    rw [List.map_cons, markFinalized_id a (h a (by simp)),
      ih (fun x hx => h x (by simp [hx]))]

lemma step_sections_marker (st : PState) (line : List Char)
    (h : startsW (chars "Jobb navn:") (pyStrip line) = true) :
    (step st line).sections = (end_current_section st).sections := by
  simp [step, h]

lemma step_sections_other (st : PState) (line : List Char)
    (h : startsW (chars "Jobb navn:") (pyStrip line) = false) :
    (step st line).sections = st.sections := by
  simp only [step, h, Bool.false_eq_true, if_false]
  cases hc : st.current_section with
  | none => rfl
  | some cs =>
    simp only []
    repeat' split
    all_goals rfl

lemma end_current_section_open (st : PState) (cs : Section)
    (h1 : st.current_section = some cs) (h2 : cs.finalized = false) :
    end_current_section st =
      { sections := (st.sections ++ [flushTables cs st.table_data]).map markFinalized,
        current_section := none, in_table := false, table_data := [] } := by
  unfold end_current_section
  rw [h1]
  simp [h2]

lemma end_sections_cases (st : PState) :
    (end_current_section st).sections = st.sections ∨
    ∃ cs, st.current_section = some cs ∧ cs.finalized = false ∧
      (end_current_section st).sections
        = (st.sections ++ [flushTables cs st.table_data]).map markFinalized := by
  unfold end_current_section
  cases hc : st.current_section with
  | none => exact Or.inl rfl
  | some cs =>
    by_cases hf : cs.finalized = true
    · simp [hf]
    · have hf' : cs.finalized = false := by simpa using hf
      right
      refine ⟨cs, rfl, hf', ?_⟩
      simp [hf']

/-- C4.  Closing a section: (1) `end_current_section` on a state with an open,
not-yet-finalized section flushes any pending rows as a final table, appends
the section (marking everything collected as finalized) and resets the
parser state; (2) a section-start marker line routes through
`end_current_section`; (3) once a section has been emitted it is never
reopened or changed by any later step — the previously collected sections
remain an unchanged prefix; (4) after all input is consumed the still-open
section is flushed and appended once more by the final call. -/
theorem C4_section_finalization :
    (∀ (st : PState) (cs : Section), st.current_section = some cs → cs.finalized = false →
        end_current_section st =
          { sections := (st.sections ++ [flushTables cs st.table_data]).map markFinalized,
            current_section := none, in_table := false, table_data := [] }) ∧
    (∀ (st : PState) (line : List Char),
        startsW (chars "Jobb navn:") (pyStrip line) = true →
        (step st line).sections = (end_current_section st).sections) ∧
    (∀ (st : PState) (line : List Char),
        (∀ x ∈ st.sections, x.finalized = true) →
        List.IsPrefix st.sections (step st line).sections ∧
        ∀ x ∈ (step st line).sections, x.finalized = true) ∧
    (∀ (ld : List (Int × List (List Char))) (cs : Section),
        (foldPages ld).current_section = some cs → cs.finalized = false →
        parse_pdf_structure ld
          = ((foldPages ld).sections
              ++ [flushTables cs (foldPages ld).table_data]).map markFinalized) := by
  refine ⟨end_current_section_open, step_sections_marker, ?_, ?_⟩
  · intro st line hfin
    by_cases hm : startsW (chars "Jobb navn:") (pyStrip line) = true
    · rw [step_sections_marker st line hm]
      rcases end_sections_cases st with hsame | ⟨cs, _, _, heq⟩
      · rw [hsame]
        exact ⟨List.prefix_refl _, hfin⟩
      · rw [heq, List.map_append, map_markFinalized_id st.sections hfin]
        constructor
        · exact ⟨[flushTables cs st.table_data].map markFinalized, rfl⟩
        · intro x hx
          rcases List.mem_append.mp hx with hx | hx
          · exact hfin x hx
          · simp only [List.map_cons, List.map_nil, List.mem_singleton] at hx
            rw [hx]
            simp [markFinalized]
    · rw [step_sections_other st line (by simpa using hm)]
      exact ⟨List.prefix_refl _, hfin⟩
  · intro ld cs h1 h2
    unfold parse_pdf_structure
    rw [end_current_section_open (foldPages ld) cs h1 h2]

/-- Witness for C4: a concrete open state with one pending row is flushed and
appended on `end_current_section`, and a section-start marker line routes the
step through `end_current_section`. -/
theorem C4_section_finalization_witness :
    end_current_section
        ⟨[], some (newSection (chars "A")), true, [[chars "1", chars "2", chars "Cable"]]⟩
      = { sections := ([] ++ [flushTables (newSection (chars "A"))
              [[chars "1", chars "2", chars "Cable"]]]).map markFinalized,
          current_section := none, in_table := false, table_data := [] } ∧
    (step ⟨[], some (newSection (chars "A")), true, [[chars "1", chars "2", chars "Cable"]]⟩
        (chars "Jobb navn: B")).sections
      = (end_current_section
          ⟨[], some (newSection (chars "A")), true, [[chars "1", chars "2", chars "Cable"]]⟩).sections :=
  ⟨C4_section_finalization.1 _ (newSection (chars "A")) rfl rfl,
   C4_section_finalization.2.1 _ _ (by decide)⟩

lemma dropWhile_head?_false {p : Char → Bool} :
    ∀ (l : List Char) {c : Char}, (l.dropWhile p).head? = some c → p c = false := by
  intro l
  induction l with
  | nil => intro c h; simp [List.dropWhile] at h
  | cons a t ih =>
    intro c h
    by_cases hp : p a = true
    · rw [List.dropWhile_cons] at h
      simp only [hp, if_true] at h
      exact ih h
    · have hp' : p a = false := by simpa using hp
      rw [List.dropWhile_cons] at h
      simp only [hp', Bool.false_eq_true, if_false, List.head?_cons,
        Option.some.injEq] at h
      rw [← h]
      exact hp'

lemma exists_prefix_dropWhile {p : Char → Bool} :
    ∀ l : List Char, ∃ u, u ++ l.dropWhile p = l := by
  intro l
  induction l with
  | nil => exact ⟨[], rfl⟩
  | cons a t ih =>
    by_cases hp : p a = true
    · obtain ⟨u, hu⟩ := ih
      refine ⟨a :: u, ?_⟩
      rw [List.dropWhile_cons]
      simp only [hp, if_true, List.cons_append, hu]
    · have hp' : p a = false := by simpa using hp
      refine ⟨[], ?_⟩
      rw [List.dropWhile_cons]
      simp [hp']

lemma pyStrip_prefix (l : List Char) :
    ∃ u, l.dropWhile pyIsSpace = pyStrip l ++ u := by
  obtain ⟨u, hu⟩ := exists_prefix_dropWhile (p := pyIsSpace) (l.dropWhile pyIsSpace).reverse
  refine ⟨u.reverse, ?_⟩
  have := congrArg List.reverse hu
  simp only [List.reverse_append, List.reverse_reverse] at this
  rw [← this]
  rfl

lemma pyStrip_head?_not_space (l : List Char) {c : Char}
    (h : (pyStrip l).head? = some c) : pyIsSpace c = false := by
  obtain ⟨u, hu⟩ := pyStrip_prefix l
  cases hps : pyStrip l with
  | nil => rw [hps] at h; simp at h
  | cons a t =>
    rw [hps, List.head?_cons, Option.some.injEq] at h
    rw [hps] at hu
    refine h ▸ dropWhile_head?_false (p := pyIsSpace) l ?_
    rw [hu]
    rfl

lemma pyStrip_getLast?_not_space (l : List Char) {c : Char}
    (h : (pyStrip l).getLast? = some c) : pyIsSpace c = false := by
  have h2 : ((l.dropWhile pyIsSpace).reverse.dropWhile pyIsSpace).reverse.getLast? = some c := h
  rw [List.getLast?_reverse] at h2
  exact dropWhile_head?_false _ h2

lemma pyStrip_eq_self (l : List Char)
    (h1 : ∀ c, l.head? = some c → pyIsSpace c = false)
    (h2 : ∀ c, l.getLast? = some c → pyIsSpace c = false) : pyStrip l = l := by
  have hd : l.dropWhile pyIsSpace = l := by
    cases l with
    | nil => rfl
    | cons a t =>
      rw [List.dropWhile_cons]
      simp [h1 a rfl]
  have hr : l.reverse.dropWhile pyIsSpace = l.reverse := by
    cases hrev : l.reverse with
    | nil => rfl
    | cons a t =>
      have ha : l.getLast? = some a := by
        rw [← List.head?_reverse, hrev]
        rfl
      rw [List.dropWhile_cons]
      simp [h2 a ha]
  unfold pyStrip
  rw [hd, hr, List.reverse_reverse]

lemma pyStrip_idem (l : List Char) : pyStrip (pyStrip l) = pyStrip l :=
  pyStrip_eq_self (pyStrip l) (fun _ h => pyStrip_head?_not_space l h)
    (fun _ h => pyStrip_getLast?_not_space l h)

lemma appendToLast_three (p q nm txt : List Char) :
    appendToLast txt [p, q, nm] = [p, q, nm ++ txt] := rfl

lemma appendContinuation_snoc (txt : List Char) (r : List (List Char)) :
    ∀ rows, appendContinuation txt (rows ++ [r]) = rows ++ [appendToLast txt r] := by
  intro rows
  induction rows with
  | nil => rfl
  | cons a rows ih =>
    obtain ⟨b, t, hbt⟩ : ∃ b t, rows ++ [r] = b :: t := by
      cases rows with
      | nil => exact ⟨r, [], rfl⟩
      | cons x xs => exact ⟨x, xs ++ [r], rfl⟩
    calc appendContinuation txt ((a :: rows) ++ [r])
        = appendContinuation txt (a :: (rows ++ [r])) := by rw [List.cons_append]
      _ = a :: appendContinuation txt (rows ++ [r]) := by rw [hbt]; rfl
      _ = a :: (rows ++ [appendToLast txt r]) := by rw [ih]
      _ = (a :: rows) ++ [appendToLast txt r] := by rw [List.cons_append]

/-- C6 (amended).  While a table is open, every line that actually reaches the
table-row branch — that is, one that matches none of the section-marker,
metadata, totals or table-header patterns — and splits into fewer than 3
whitespace-delimited fields is treated as a continuation: a space plus the
full trimmed line text is appended to the third field of the last pending
row, no new row is added, and with no pending rows the line has no effect.
(Lines with fewer than 3 fields that DO match an earlier pattern, such as a
bare metadata prefix, are consumed by that pattern instead — see the
counterexample.) -/
theorem C6_row_continuation (st : PState) (cs : Section) (line : List Char)
    (hcur : st.current_section = some cs)
    (hin : st.in_table = true)
    (h1 : startsW (chars "Jobb navn:") (pyStrip line) = false)
    (h2 : startsW (chars "Start dato") (pyStrip line) = false)
    (h3 : startsW (chars "Retur dato") (pyStrip line) = false)
    (h4 : startsW (chars "Brukerdager") (pyStrip line) = false)
    (h5 : startsW (chars "Total utstyr:") (pyStrip line) = false)
    (h6 : startsW (chars "Total eks.mva") (pyStrip line) = false)
    (h7 : (startsW (chars "Pos") (pyStrip line) && hasSub (chars "Antall") (pyStrip line) &&
           hasSub (chars "Navn") (pyStrip line)) = false)
    (hlen : (splitMax2 (pyStrip line)).length < 3) :
    (st.table_data = [] → step st line = st) ∧
    (∀ rows p q nm, st.table_data = rows ++ [[p, q, nm]] →
        step st line
          = { st with table_data := rows ++ [[p, q, nm ++ ' ' :: pyStrip line]] }) := by
  have hne3 : ¬ (splitMax2 (pyStrip line)).length = 3 := Nat.ne_of_lt hlen
  constructor
  · intro he
    simp [step, h1, hcur, h2, h3, h4, h5, h6, h7, hin, hne3, he]
  · intro rows p q nm hrows
    have hnonempty : ¬ st.table_data = [] := by
      rw [hrows]
      simp
    simp only [step, h1, Bool.false_eq_true, if_false, hcur, h2, h3, h4, h5, h6, h7,
      hin, if_true, hne3, hnonempty]
    rw [hrows, appendContinuation_snoc, appendToLast_three, pyStrip_idem]

/-- Witness for C6: with one pending row `("1","2","Cable")` and the 2-token
line `"extra text"`, the third field becomes `"Cable extra text"` and no new
row is added. -/
theorem C6_row_continuation_witness :
    step ⟨[], some (newSection (chars "A")), true, [[chars "1", chars "2", chars "Cable"]]⟩
        (chars "extra text")
      = { sections := [], current_section := some (newSection (chars "A")), in_table := true,
          table_data := [[chars "1", chars "2", chars "Cable extra text"]] } :=
  (C6_row_continuation _ (newSection (chars "A")) (chars "extra text") rfl rfl
      (by decide) (by decide) (by decide) (by decide) (by decide) (by decide) (by decide)
      (by decide)).2 [] (chars "1") (chars "2") (chars "Cable") rfl

/-- C6 counterexample: a table is open with pending row `("1","2","Cable")`,
and the next line `"Brukerdager"` splits into a single field (fewer than 3).
The claim predicts the row becomes `("1","2","Cable Brukerdager")`; the code
instead matches the metadata prefix first, leaving the row unchanged. -/
theorem C6_counterexample :
    (parse_pdf_structure [(0, [chars "Jobb navn: A", chars "Pos Antall Navn",
        chars "1 2 Cable", chars "Brukerdager"])]).map (fun sec => sec.tables)
      = [[[[chars "1", chars "2", chars "Cable"]]]] ∧
    ¬ ((parse_pdf_structure [(0, [chars "Jobb navn: A", chars "Pos Antall Navn",
        chars "1 2 Cable", chars "Brukerdager"])]).map (fun sec => sec.tables)
      = [[[[chars "1", chars "2", chars "Cable Brukerdager"]]]]) := by
  constructor
  · rfl
  · decide

lemma startsW_pos_shape (L : List Char) (h : startsW (chars "Pos") L = true) :
    ∃ t, L = 'P' :: t := by
  cases L with
  | nil => exact absurd h (by decide)
  | cons c t =>
    cases hpc : ('P' == c) with
    | false =>
      rw [show startsW (chars "Pos") (c :: t) = (('P' == c) && startsW (chars "os") t)
            from rfl, hpc] at h
      simp at h
    | true =>
      exact ⟨t, by rw [← beq_iff_eq.mp hpc]⟩

lemma pos_line_not_other (L : List Char) (h : startsW (chars "Pos") L = true) :
    startsW (chars "Jobb navn:") L = false ∧ startsW (chars "Start dato") L = false ∧
    startsW (chars "Retur dato") L = false ∧ startsW (chars "Brukerdager") L = false ∧
    startsW (chars "Total utstyr:") L = false ∧ startsW (chars "Total eks.mva") L = false := by
  obtain ⟨t, rfl⟩ := startsW_pos_shape L h
  exact ⟨rfl, rfl, rfl, rfl, rfl, rfl⟩

/-- A line that, once trimmed, matches none of the parser's patterns and
splits into exactly 3 whitespace-delimited fields — a plain table data row. -/
def isDataRowB (l : List Char) : Bool :=
  !startsW (chars "Jobb navn:") (pyStrip l) &&
  !startsW (chars "Start dato") (pyStrip l) &&
  !startsW (chars "Retur dato") (pyStrip l) &&
  !startsW (chars "Brukerdager") (pyStrip l) &&
  !startsW (chars "Total utstyr:") (pyStrip l) &&
  !startsW (chars "Total eks.mva") (pyStrip l) &&
  !(startsW (chars "Pos") (pyStrip l) && hasSub (chars "Antall") (pyStrip l) &&
    hasSub (chars "Navn") (pyStrip l)) &&
  ((splitMax2 (pyStrip l)).length == 3)

lemma isDataRowB_spec (l : List Char) (h : isDataRowB l = true) :
    startsW (chars "Jobb navn:") (pyStrip l) = false ∧
    startsW (chars "Start dato") (pyStrip l) = false ∧
    startsW (chars "Retur dato") (pyStrip l) = false ∧
    startsW (chars "Brukerdager") (pyStrip l) = false ∧
    startsW (chars "Total utstyr:") (pyStrip l) = false ∧
    startsW (chars "Total eks.mva") (pyStrip l) = false ∧
    (startsW (chars "Pos") (pyStrip l) && hasSub (chars "Antall") (pyStrip l) &&
      hasSub (chars "Navn") (pyStrip l)) = false ∧
    (splitMax2 (pyStrip l)).length = 3 := by
  unfold isDataRowB at h
  repeat' rw [Bool.and_eq_true] at h
  obtain ⟨⟨⟨⟨⟨⟨⟨ha, hb⟩, hc⟩, hd⟩, he⟩, hf⟩, hg⟩, hh⟩ := h
  refine ⟨?_, ?_, ?_, ?_, ?_, ?_, ?_, ?_⟩
  · simpa using ha
  · simpa using hb
  · simpa using hc
  · simpa using hd
  · simpa using he
  · simpa using hf
  · cases hb7 : (startsW (chars "Pos") (pyStrip l) && hasSub (chars "Antall") (pyStrip l) &&
        hasSub (chars "Navn") (pyStrip l)) with
    | false => rfl
    | true => rw [hb7] at hg; exact absurd hg (by decide)
  · simpa using hh

lemma step_data_row (st : PState) (cs : Section) (line : List Char)
    (hcur : st.current_section = some cs) (hin : st.in_table = true)
    (hd : isDataRowB line = true) :
    step st line = { st with table_data := st.table_data ++ [splitMax2 (pyStrip line)] } := by
  obtain ⟨h1, h2, h3, h4, h5, h6, h7, h8⟩ := isDataRowB_spec line hd
  simp [step, h1, hcur, h2, h3, h4, h5, h6, h7, hin, h8]

lemma step_header (st : PState) (cs : Section) (line : List Char)
    (hcur : st.current_section = some cs)
    (hh : (startsW (chars "Pos") (pyStrip line) && hasSub (chars "Antall") (pyStrip line) &&
        hasSub (chars "Navn") (pyStrip line)) = true) :
    step st line = { st with
                     current_section := some (flushTables cs st.table_data),
                     in_table := true,
                     table_data := [] } := by
  have hpos : startsW (chars "Pos") (pyStrip line) = true := by
    have h' := hh
    simp only [Bool.and_eq_true] at h'
    exact h'.1.1
  obtain ⟨hm, hs, hr, hb, hu, he⟩ := pos_line_not_other _ hpos
  simp [step, hm, hcur, hs, hr, hb, hu, he, hh]

lemma step_marker (st : PState) (line : List Char)
    (h : startsW (chars "Jobb navn:") (pyStrip line) = true) :
    step st line
      = { end_current_section st with
          current_section :=
            some (newSection (pyStrip (replaceAll (chars "Jobb navn:") [] (pyStrip line)))),
          in_table := false, table_data := [] } := by
  simp [step, h]

lemma foldl_data_rows (rows : List (List Char)) :
    ∀ (st : PState) (cs : Section), st.current_section = some cs → st.in_table = true →
      (∀ l ∈ rows, isDataRowB l = true) →
      rows.foldl step st
        = { st with table_data :=
              st.table_data ++ rows.map (fun l => splitMax2 (pyStrip l)) } := by
  induction rows with
  | nil => intro st cs hcur hin _; simp
  | cons r rows ih =>
    intro st cs hcur hin hall
    rw [List.foldl_cons, step_data_row st cs r hcur hin (hall r (by simp))]
    rw [ih { st with table_data := st.table_data ++ [splitMax2 (pyStrip r)] } cs
      (by simp [hcur]) (by simp [hin]) (fun l hl => hall l (by simp [hl]))]
    simp

/-- C7.  A section whose line sequence is a marker line, a table-header line,
data rows, a second table-header line and further data rows produces exactly
two TableBlocks: the first holds precisely the rows between the first and the
second header, the second precisely the rows between the second header and
the section's end. -/
theorem C7_multi_table (job h1 h2 : List Char) (rows1 rows2 : List (List Char))
    (hjob : startsW (chars "Jobb navn:") (pyStrip job) = true)
    (hh1 : (startsW (chars "Pos") (pyStrip h1) && hasSub (chars "Antall") (pyStrip h1) &&
        hasSub (chars "Navn") (pyStrip h1)) = true)
    (hh2 : (startsW (chars "Pos") (pyStrip h2) && hasSub (chars "Antall") (pyStrip h2) &&
        hasSub (chars "Navn") (pyStrip h2)) = true)
    (hr1 : ∀ l ∈ rows1, isDataRowB l = true)
    (hr2 : ∀ l ∈ rows2, isDataRowB l = true)
    (hne1 : rows1 ≠ []) (hne2 : rows2 ≠ []) :
    parse_pdf_structure [(0, job :: h1 :: (rows1 ++ h2 :: rows2))]
      = [{ section_name := pyStrip (replaceAll (chars "Jobb navn:") [] (pyStrip job)),
           start_date := [], return_date := [], brukerdager := [],
           tables := [rows1.map (fun l => splitMax2 (pyStrip l)),
                      rows2.map (fun l => splitMax2 (pyStrip l))],
           total_utstyr := none, total_eks_mva := none, finalized := true }] := by
  have hmap1 : rows1.map (fun l => splitMax2 (pyStrip l)) ≠ [] := by
    cases rows1 with
    | nil => exact absurd rfl hne1
    | cons a t => simp
  have hmap2 : rows2.map (fun l => splitMax2 (pyStrip l)) ≠ [] := by
    cases rows2 with
    | nil => exact absurd rfl hne2
    | cons a t => simp
  set nm := pyStrip (replaceAll (chars "Jobb navn:") [] (pyStrip job)) with hnm
  set rows1' := rows1.map (fun l => splitMax2 (pyStrip l)) with hrows1
  set rows2' := rows2.map (fun l => splitMax2 (pyStrip l)) with hrows2
  have e1 : step ⟨[], none, false, []⟩ job = ⟨[], some (newSection nm), false, []⟩ := by
    rw [step_marker _ job hjob]
    rfl
  have e2 : step ⟨[], some (newSection nm), false, []⟩ h1
      = ⟨[], some (newSection nm), true, []⟩ := by
    rw [step_header _ (newSection nm) h1 rfl hh1]
    rfl
  have e3 : List.foldl step ⟨[], some (newSection nm), true, []⟩ rows1
      = ⟨[], some (newSection nm), true, rows1'⟩ := by
    rw [foldl_data_rows rows1 _ (newSection nm) rfl rfl hr1]
    rfl
  have e4 : step ⟨[], some (newSection nm), true, rows1'⟩ h2
      = ⟨[], some ({ newSection nm with tables := [rows1'] }), true, []⟩ := by
    rw [step_header _ (newSection nm) h2 rfl hh2]
    unfold flushTables
    rw [if_neg hmap1]
    rfl
  have e5 : List.foldl step ⟨[], some ({ newSection nm with tables := [rows1'] }), true, []⟩ rows2
      = ⟨[], some ({ newSection nm with tables := [rows1'] }), true, rows2'⟩ := by
    rw [foldl_data_rows rows2 _ ({ newSection nm with tables := [rows1'] }) rfl rfl hr2]
    rfl
  have e6 : end_current_section ⟨[], some ({ newSection nm with tables := [rows1'] }), true, rows2'⟩
      = ⟨[{ section_name := nm, start_date := [], return_date := [], brukerdager := [],
            tables := [rows1', rows2'], total_utstyr := none, total_eks_mva := none,
            finalized := true }], none, false, []⟩ := by
    rw [end_current_section_open _ ({ newSection nm with tables := [rows1'] }) rfl rfl]
    unfold flushTables
    rw [if_neg hmap2]
    simp [newSection, markFinalized]
  show (end_current_section (List.foldl step ⟨[], none, false, []⟩
      (job :: h1 :: (rows1 ++ h2 :: rows2)))).sections = _
  rw [List.foldl_cons, e1, List.foldl_cons, e2, List.foldl_append, e3, List.foldl_cons,
    e4, e5, e6]

/-- Witness for C7: a concrete section with two headers and one data row in
each block yields two one-row TableBlocks. -/
theorem C7_multi_table_witness :
    parse_pdf_structure [(0, chars "Jobb navn: Gamma" :: chars "Pos Antall Navn" ::
        ([chars "5 6 Truss"] ++ chars "Pos Antall Navn" :: [chars "7 8 Stand"]))]
      = [{ section_name := chars "Gamma",
           start_date := [], return_date := [], brukerdager := [],
           tables := [[[chars "5", chars "6", chars "Truss"]],
                      [[chars "7", chars "8", chars "Stand"]]],
           total_utstyr := none, total_eks_mva := none, finalized := true }] :=
  C7_multi_table (chars "Jobb navn: Gamma") (chars "Pos Antall Navn")
    (chars "Pos Antall Navn") [chars "5 6 Truss"] [chars "7 8 Stand"]
    (by decide) (by decide) (by decide) (by decide) (by decide) (by decide) (by decide)

lemma appendToLast_length (txt : List Char) :
    ∀ r : List (List Char), (appendToLast txt r).length = r.length := by
  intro r
  induction r with
  | nil => rfl
  | cons f fs ih =>
    cases fs with
    | nil => rfl
    | cons g gs =>
      show (f :: appendToLast txt (g :: gs)).length = (f :: g :: gs).length
      simp [ih]

lemma appendContinuation_arity (txt : List Char) :
    ∀ rows, (∀ r ∈ rows, r.length = 3) →
      ∀ r ∈ appendContinuation txt rows, r.length = 3 := by
  intro rows
  induction rows with
  | nil => intro _ r hr; simp [appendContinuation] at hr
  | cons a rows ih =>
    intro hall r hr
    cases rows with
    | nil =>
      simp only [appendContinuation] at hr
      rcases List.mem_singleton.mp hr with rfl
      rw [appendToLast_length]
      exact hall a (by simp)
    | cons b t =>
      rw [show appendContinuation txt (a :: b :: t)
            = a :: appendContinuation txt (b :: t) from rfl] at hr
      rcases List.mem_cons.mp hr with rfl | hr
      · exact hall _ (by simp)
      · exact ih (fun x hx => hall x (by simp [hx])) r hr

/-- The invariant carried by every section the parser builds: its name is
already stripped, and every row of every stored table has exactly 3 fields. -/
def secOK (sec : Section) : Prop :=
  pyStrip sec.section_name = sec.section_name ∧
  ∀ tb ∈ sec.tables, ∀ r ∈ tb, r.length = 3

/-- The parser-state invariant: all collected sections and the open section
satisfy `secOK`, and every pending row has exactly 3 fields. -/
def stOK (st : PState) : Prop :=
  (∀ x ∈ st.sections, secOK x) ∧
  (∀ cs, st.current_section = some cs → secOK cs) ∧
  (∀ r ∈ st.table_data, r.length = 3)

lemma secOK_mark {sec : Section} (h : secOK sec) : secOK (markFinalized sec) :=
  ⟨h.1, h.2⟩

lemma secOK_flush {sec : Section} {td : List (List (List Char))}
    (h : secOK sec) (htd : ∀ r ∈ td, r.length = 3) : secOK (flushTables sec td) := by
  unfold flushTables
  split
  · exact h
  · refine ⟨h.1, ?_⟩
    intro tb htb
    have htb' : tb ∈ sec.tables ++ [td] := htb
    rcases List.mem_append.mp htb' with hin | hin
    · exact h.2 tb hin
    · rcases List.mem_singleton.mp hin with rfl
      exact htd

lemma end_current_section_none (st : PState) (hc : st.current_section = none) :
    end_current_section st
      = { st with current_section := none, in_table := false, table_data := [] } := by
  unfold end_current_section
  rw [hc]

lemma end_current_section_finalized (st : PState) (cs : Section)
    (hc : st.current_section = some cs) (hf : cs.finalized = true) :
    end_current_section st
      = { st with current_section := none, in_table := false, table_data := [] } := by
  unfold end_current_section
  rw [hc]
  simp [hf]

lemma stOK_end {st : PState} (h : stOK st) : stOK (end_current_section st) := by
  cases hc : st.current_section with
  | none =>
    rw [end_current_section_none st hc]
    refine ⟨h.1, ?_, ?_⟩
    · intro c hcs
      simp at hcs
    · intro r hr
      simp at hr
  | some cs =>
    by_cases hf : cs.finalized = true
    · rw [end_current_section_finalized st cs hc hf]
      refine ⟨h.1, ?_, ?_⟩
      · intro c hcs
        simp at hcs
      · intro r hr
        simp at hr
    · have hf' : cs.finalized = false := by simpa using hf
      rw [end_current_section_open st cs hc hf']
      refine ⟨?_, ?_, ?_⟩
      · intro x hx
        have hx' : x ∈ (st.sections ++ [flushTables cs st.table_data]).map markFinalized := hx
        rcases List.mem_map.mp hx' with ⟨y, hy, rfl⟩
        rcases List.mem_append.mp hy with hy | hy
        · exact secOK_mark (h.1 y hy)
        · rcases List.mem_singleton.mp hy with rfl
          exact secOK_mark (secOK_flush (h.2.1 cs hc) h.2.2)
      · intro c hcs
        simp at hcs
      · intro r hr
        simp at hr

lemma stOK_set_current {st : PState} (h : stOK st) (c : Section) (hOK : secOK c) :
    stOK { st with current_section := some c } :=
  ⟨h.1,
   fun d hd => by
     have hd' : some c = some d := hd
     obtain rfl := Option.some.inj hd'
     exact hOK,
   h.2.2⟩

lemma stOK_step {st : PState} (line : List Char) (h : stOK st) : stOK (step st line) := by
  by_cases hm : startsW (chars "Jobb navn:") (pyStrip line) = true
  · have he := stOK_end h
    rw [step_marker st line hm]
    refine ⟨he.1, ?_, fun r hr => by simp at hr⟩
    intro c hcs
    have hcs' : some (newSection (pyStrip (replaceAll (chars "Jobb navn:") [] (pyStrip line))))
        = some c := hcs
    obtain rfl := Option.some.inj hcs'
    refine ⟨pyStrip_idem _, ?_⟩
    intro tb htb
    have htb' : tb ∈ ([] : List (List (List (List Char)))) := htb
    simp at htb'
  · have hm' : startsW (chars "Jobb navn:") (pyStrip line) = false := by simpa using hm
    cases hc : st.current_section with
    | none =>
      rw [show step st line = st from by simp [step, hm', hc]]
      exact h
    | some cs =>
      have hcsOK := h.2.1 cs hc
      by_cases hb1 : startsW (chars "Start dato") (pyStrip line) = true
      · rw [show step st line = { st with current_section := some ({ cs with start_date := pyStrip (replaceAll (chars "Start dato") [] (pyStrip line)) }) } from by simp [step, hm', hc, hb1]]
        exact stOK_set_current h _ ⟨hcsOK.1, hcsOK.2⟩
      have hb1' : startsW (chars "Start dato") (pyStrip line) = false := by simpa using hb1
      by_cases hb2 : startsW (chars "Retur dato") (pyStrip line) = true
      · rw [show step st line = { st with current_section := some ({ cs with return_date := pyStrip (replaceAll (chars "Retur dato") [] (pyStrip line)) }) } from by simp [step, hm', hc, hb1', hb2]]
        exact stOK_set_current h _ ⟨hcsOK.1, hcsOK.2⟩
      have hb2' : startsW (chars "Retur dato") (pyStrip line) = false := by simpa using hb2
      by_cases hb3 : startsW (chars "Brukerdager") (pyStrip line) = true
      · rw [show step st line = { st with current_section := some ({ cs with brukerdager := pyStrip (replaceAll (chars "Brukerdager") [] (pyStrip line)) }) } from by simp [step, hm', hc, hb1', hb2', hb3]]
        exact stOK_set_current h _ ⟨hcsOK.1, hcsOK.2⟩
      have hb3' : startsW (chars "Brukerdager") (pyStrip line) = false := by simpa using hb3
      by_cases hb4 : startsW (chars "Total utstyr:") (pyStrip line) = true
      · rw [show step st line = { st with current_section := some ({ cs with total_utstyr := some (pyStrip (replaceAll (chars "Total utstyr:") [] (pyStrip line))) }) } from by simp [step, hm', hc, hb1', hb2', hb3', hb4]]
        exact stOK_set_current h _ ⟨hcsOK.1, hcsOK.2⟩
      have hb4' : startsW (chars "Total utstyr:") (pyStrip line) = false := by simpa using hb4
      by_cases hb5 : startsW (chars "Total eks.mva") (pyStrip line) = true
      · rw [show step st line = { st with current_section := some ({ cs with total_eks_mva := some (pyStrip (replaceAll (chars "Total eks.mva") [] (pyStrip line))) }) } from by simp [step, hm', hc, hb1', hb2', hb3', hb4', hb5]]
        exact stOK_set_current h _ ⟨hcsOK.1, hcsOK.2⟩
      have hb5' : startsW (chars "Total eks.mva") (pyStrip line) = false := by simpa using hb5
      by_cases hb6 : (startsW (chars "Pos") (pyStrip line) && hasSub (chars "Antall") (pyStrip line) &&
          hasSub (chars "Navn") (pyStrip line)) = true
      · rw [step_header st cs line hc hb6]
        refine ⟨h.1, ?_, fun r hr => by simp at hr⟩
        intro d hd
        have hd' : some (flushTables cs st.table_data) = some d := hd
        obtain rfl := Option.some.inj hd'
        exact secOK_flush hcsOK h.2.2
      have hb6' : (startsW (chars "Pos") (pyStrip line) && hasSub (chars "Antall") (pyStrip line) &&
          hasSub (chars "Navn") (pyStrip line)) = false := by simpa using hb6
      by_cases hin : st.in_table = true
      · by_cases hlen : (splitMax2 (pyStrip line)).length = 3
        · rw [show step st line
              = { st with table_data := st.table_data ++ [splitMax2 (pyStrip line)] }
              from by simp [step, hm', hc, hb1', hb2', hb3', hb4', hb5', hb6', hin, hlen]]
          refine ⟨h.1, fun d hd => h.2.1 d hd, ?_⟩
          intro r hr
          have hr' : r ∈ st.table_data ++ [splitMax2 (pyStrip line)] := hr
          rcases List.mem_append.mp hr' with hrr | hrr
          · exact h.2.2 r hrr
          · rcases List.mem_singleton.mp hrr with rfl
            exact hlen
        · by_cases hemp : st.table_data = []
          · rw [show step st line = st
                from by simp [step, hm', hc, hb1', hb2', hb3', hb4', hb5', hb6', hin, hlen, hemp]]
            exact h
          · rw [show step st line
                = { st with table_data :=
                    appendContinuation (' ' :: pyStrip (pyStrip line)) st.table_data }
                from by simp [step, hm', hc, hb1', hb2', hb3', hb4', hb5', hb6', hin, hlen, hemp]]
            exact ⟨h.1, fun d hd => h.2.1 d hd, appendContinuation_arity _ _ h.2.2⟩
      · have hin' : st.in_table = false := by simpa using hin
        rw [show step st line = st
            from by simp [step, hm', hc, hb1', hb2', hb3', hb4', hb5', hb6', hin']]
        exact h

lemma stOK_foldl_lines (lines : List (List Char)) :
    ∀ st, stOK st → stOK (lines.foldl step st) := by
  induction lines with
  | nil => intro st h; exact h
  | cons l lines ih =>
    intro st h
    rw [List.foldl_cons]
    exact ih _ (stOK_step l h)

lemma stOK_foldPages (ld : List (Int × List (List Char))) : stOK (foldPages ld) := by
  unfold foldPages
  have hgen : ∀ (pgs : List (Int × List (List Char))) (st : PState), stOK st →
      stOK (pgs.foldl (fun st pg => pg.2.foldl step st) st) := by
    intro pgs
    induction pgs with
    | nil => intro st h; exact h
    | cons p pgs ih =>
      intro st h
      rw [List.foldl_cons]
      exact ih _ (stOK_foldl_lines p.2 st h)
  refine hgen ld _ ⟨?_, ?_, ?_⟩
  · intro x hx
    simp at hx
  · intro c hcs
    simp at hcs
  · intro r hr
    simp at hr

lemma parse_secOK (ld : List (Int × List (List Char))) {sec : Section}
    (h : sec ∈ parse_pdf_structure ld) : secOK sec := by
  unfold parse_pdf_structure at h
  exact (stOK_end (stOK_foldPages ld)).1 sec h

/-- C9.  Every row of every TableBlock of every Section returned by
`parse_pdf_structure` has exactly 3 fields: rows are only appended when the
line splits into exactly 3 fields, and continuation lines only extend the
third field of an existing row. -/
theorem C9_row_arity (ld : List (Int × List (List Char))) (sec : Section)
    (tb : List (List (List Char))) (r : List (List Char))
    (hs : sec ∈ parse_pdf_structure ld) (ht : tb ∈ sec.tables) (hr : r ∈ tb) :
    r.length = 3 :=
  (parse_secOK ld hs).2 tb ht r hr

/-- Witness for C9: a concrete parsed row (including one built through a
continuation line) has exactly 3 fields. -/
theorem C9_row_arity_witness :
    ([chars "9", chars "1", chars "Case extra"] : List (List Char)).length = 3 :=
  C9_row_arity [(0, [chars "Jobb navn: Delta", chars "Pos Antall Navn",
      chars "9 1 Case", chars "extra"])]
    { section_name := chars "Delta", start_date := [], return_date := [], brukerdager := [],
      tables := [[[chars "9", chars "1", chars "Case extra"]]],
      total_utstyr := none, total_eks_mva := none, finalized := true }
    [[chars "9", chars "1", chars "Case extra"]]
    [chars "9", chars "1", chars "Case extra"]
    (by decide) (by decide) (by decide)

lemma sanChar_not_space (c : Char) (h : pyIsSpace c = false) :
    pyIsSpace (sanChar c) = false := by
  unfold sanChar
  split
  · exact h
  · decide

lemma trimmed_head_not_space (name : List Char) (h : pyStrip name = name)
    {a : Char} {t : List Char} (hn : name = a :: t) : pyIsSpace a = false :=
  pyStrip_head?_not_space name (c := a) (by rw [h, hn]; rfl)

lemma getLast?_append_data (xs : List Char) :
    (xs ++ chars "_data").getLast? = some 'a' := by
  rw [← List.head?_reverse, List.reverse_append]
  rfl

lemma sanitize_concat (name : List Char) (h : pyStrip name = name) :
    sanitize_filename (name ++ chars "_data") = name.map sanChar ++ chars "_data" := by
  unfold sanitize_filename
  rw [List.map_append]
  rw [show (chars "_data").map sanChar = chars "_data" from rfl]
  apply pyStrip_eq_self
  · intro c hc
    cases hn : name with
    | nil =>
      rw [hn] at hc
      simp only [List.map_nil, List.nil_append] at hc
      have hc' : c = '_' := by
        rw [show (chars "_data").head? = some '_' from rfl] at hc
        exact (Option.some.inj hc).symm
      rw [hc']
      decide
    | cons a t =>
      rw [hn] at hc
      simp only [List.map_cons, List.cons_append, List.head?_cons, Option.some.injEq] at hc
      rw [← hc]
      exact sanChar_not_space a (trimmed_head_not_space name h hn)
  · intro c hc
    rw [getLast?_append_data] at hc
    have hc' : c = 'a' := (Option.some.inj hc).symm
    rw [hc']
    decide

/-- C8.  For every Section produced by the parser that has at least one
non-empty TableBlock, the per-section output file name computed in `main`
equals the spec's formula: the Section's name with every character other
than alphanumerics, spaces and underscores replaced by an underscore,
suffixed with `_data.csv`.  (The `strip()` inside `sanitize_filename` is a
no-op here because parsed section names are already stripped.) -/
theorem C8_section_filename (ld : List (Int × List (List Char))) (sec : Section)
    (hs : sec ∈ parse_pdf_structure ld)
    (_hne : ∃ tb ∈ sec.tables, tb ≠ []) :
    section_csv_filename sec.section_name = spec_section_filename sec.section_name := by
  have hname := (parse_secOK ld hs).1
  unfold section_csv_filename spec_section_filename
  rw [sanitize_concat sec.section_name hname, List.append_assoc]
  rfl

/-- Witness for C8: the section named `A/B` (with one non-empty table) gets
the file name `A_B_data.csv` under both the code and the spec formula. -/
theorem C8_section_filename_witness :
    section_csv_filename (chars "A/B") = spec_section_filename (chars "A/B") :=
  C8_section_filename
    [(0, [chars "Jobb navn: A/B", chars "Pos Antall Navn", chars "1 2 Cable"])]
    { section_name := chars "A/B", start_date := [], return_date := [], brukerdager := [],
      tables := [[[chars "1", chars "2", chars "Cable"]]],
      total_utstyr := none, total_eks_mva := none, finalized := true }
    (by decide)
    ⟨[[chars "1", chars "2", chars "Cable"]], by decide, by decide⟩

end DT
